import Mathlib

/-!
Verification of the tool-augmented coding agent (src/agents/agent_06_search.py).

The Python source is shallowly embedded: text is `List Char`, the filesystem
and Python dicts are association lists keyed by `List Char`, subprocess
results are explicit records, and every handler is a total Lean function
returning its success or error text, mirroring the source's policy that tool
failures are data, not exceptions.
-/

namespace Agent6

/-- Python identifies these ASCII characters as whitespace for `str.strip()`
(the full Python set also has Unicode spaces, which no message here uses). -/
def pyIsSpace (c : Char) : Bool :=
  c = ' ' || c = '\t' || c = '\n' || c = '\r' || c = '\x0b' || c = '\x0c'

/-- Python `str.strip()`: removes leading and trailing whitespace. -/
def pyStrip (s : List Char) : List Char :=
  ((s.dropWhile pyIsSpace).reverse.dropWhile pyIsSpace).reverse

/-- The behaviour the spec sentence describes word-for-word: removal of
trailing whitespace only (`rstrip`). Used to compare the claim with the code. -/
def rstripOnly (s : List Char) : List Char :=
  (s.reverse.dropWhile pyIsSpace).reverse

/-- Python `str.count(sub)`: non-overlapping occurrences, scanning left to
right; an empty pattern counts `len(s) + 1`. The `skip` argument carries how
many scan positions are still consumed by the previous match. -/
def countOccAux (pat : List Char) : List Char → Nat → Nat
  | [], _ => if pat = [] then 1 else 0
  | _ :: rest, Nat.succ k => countOccAux pat rest k
  | c :: rest, 0 =>
    if pat.isPrefixOf (c :: rest) then 1 + countOccAux pat rest (pat.length - 1)
    else countOccAux pat rest 0

/-- Python `s.count(pat)`. -/
def countOcc (pat s : List Char) : Nat :=
  countOccAux pat s 0

/-- Python `s.replace(pat, rep, 1)`: replace the leftmost occurrence only. -/
def replaceFirst (pat rep : List Char) : List Char → List Char
  | [] => if pat.isPrefixOf ([] : List Char) then rep else []
  | c :: rest =>
    if pat.isPrefixOf (c :: rest) then rep ++ (c :: rest).drop pat.length
    else c :: replaceFirst pat rep rest

/-- Lookup in an association list, first match wins (Python `dict` get,
restricted to the keys in use). -/
def assocLookup {α : Type} (l : List (List Char × α)) (k : List Char) : Option α :=
  match l with
  | [] => none
  | p :: rest => if p.1 = k then some p.2 else assocLookup rest k

/-- Python `d[k] = v` on an insertion-ordered dict: an existing key keeps its
position and gets the new value, a new key is appended at the end. -/
def pyDictInsert {α : Type} (l : List (List Char × α)) (k : List Char) (v : α) :
    List (List Char × α) :=
  if (assocLookup l k).isSome then l.map (fun p => if p.1 = k then (k, v) else p)
  else l ++ [(k, v)]

/-- A filesystem is a finite map from path text to file content. -/
abbrev FS : Type := List (List Char × List Char)

/-- `Path.read_text`: `none` models `FileNotFoundError`. -/
def fsRead (fs : FS) (path : List Char) : Option (List Char) :=
  assocLookup fs path

/-- `Path.write_text`: create or overwrite. -/
def fsWrite (fs : FS) (path content : List Char) : FS :=
  pyDictInsert fs path content

/-- The quoting of `old_str` in edit_file error texts: `old_str[:50] + "..."`
when longer than 50 characters, the string itself otherwise. -/
def previewOf (old : List Char) : List Char :=
  if old.length > 50 then old.take 50 ++ ("...").data else old

/-- The apostrophe character used by the source's f-strings around previews. -/
def quoteChar : Char := Char.ofNat 39

/-- `edit_file(path, old_str, new_str)` from agent_06_search.py, acting on the
filesystem map and returning (new filesystem, result text). Each branch
mirrors the source line by line; `Path.read_text` raising `FileNotFoundError`
is the `none` case of `fsRead`. -/
def editFile (fs : FS) (path old new : List Char) : FS × List Char :=
  if path = [] then (fs, ("Error: path cannot be empty").data)
  else if old = new then (fs, ("Error: old_str and new_str cannot be identical").data)
  else if old = [] then
    match fsRead fs path with
    | none => (fsWrite fs path new, ("Created new file: ").data ++ path)
    | some content =>
        (fsWrite fs path (content ++ new), ("Appended to file: ").data ++ path)
  else
    match fsRead fs path with
    | none => (fs, ("Error: file not found: ").data ++ path)
    | some content =>
      let cnt := countOcc old content
      if cnt = 0 then
        (fs, ("Error: ").data ++ [quoteChar] ++ previewOf old ++ [quoteChar]
          ++ (" not found in ").data ++ path)
      else if cnt > 1 then
        (fs, ("Error: ").data ++ [quoteChar] ++ previewOf old ++ [quoteChar]
          ++ (" found ").data ++ (toString cnt).data
          ++ (" times, need exactly 1 match. Include more context to make it unique.").data)
      else
        (fsWrite fs path (replaceFirst old new content),
          ("Successfully edited ").data ++ path)

/-- What `subprocess.run` hands back: captured stdout, stderr and exit code.
The external process itself is outside the embedding; both shell handlers are
functions of this record. -/
structure ProcResult where
  stdout : List Char
  stderr : List Char
  exitCode : Int

/-- The `bash` handler of agent_06_search.py applied to the subprocess
result: concatenate stdout then stderr; non-zero exit yields the failure
text with the raw combined output; zero exit yields the sentinel on empty
combined output and the `strip()`ped output otherwise. -/
def bashModel (r : ProcResult) : List Char :=
  let output := r.stdout ++ r.stderr
  if r.exitCode ≠ 0 then
    ("Command failed (exit ").data ++ (toString r.exitCode).data ++ ("):\n").data ++ output
  else if output = [] then ("(no output)").data
  else pyStrip output

/-- The behaviour claimed by the spec sentence, taken at its word: the
combined output has (only) its trailing whitespace stripped before use in
every branch. Compared against `bashModel` to settle the claim. -/
def bashClaimed (r : ProcResult) : List Char :=
  let output := rstripOnly (r.stdout ++ r.stderr)
  if r.exitCode ≠ 0 then
    ("Command failed (exit ").data ++ (toString r.exitCode).data ++ ("):\n").data ++ output
  else if output = [] then ("(no output)").data
  else output

/-- `MAX_MATCHES` from code_search. -/
def maxMatches : Nat := 50

/-- Python `s.split(sep)` for a one-character separator: splitting on every
occurrence, so `n` separators yield `n + 1` parts. -/
def splitOnChar (sep : Char) : List Char → List (List Char)
  | [] => [[]]
  | c :: rest =>
    if c = sep then [] :: splitOnChar sep rest
    else
      match splitOnChar sep rest with
      | [] => [[c]]
      | r :: rs => (c :: r) :: rs

/-- The `code_search` handler of agent_06_search.py applied to the ripgrep
subprocess result: exit 1 means no matches; other non-zero exits are search
errors; otherwise the stripped stdout is returned, truncated to the first 50
lines plus a summary line when it has more than 50 lines. (The absent-rg
`FileNotFoundError` branch concerns spawning, not the result, and is outside
this record.) -/
def codeSearchModel (r : ProcResult) : List Char :=
  if r.exitCode = 1 then ("No matches found").data
  else if r.exitCode ≠ 0 then ("Search error: ").data ++ r.stderr
  else
    let output := pyStrip r.stdout
    if output = [] then ("No matches found").data
    else
      let lines := splitOnChar '\n' output
      if lines.length > maxMatches then
        List.intercalate ['\n'] (lines.take maxMatches)
          ++ ("\n\n... (showing first ").data ++ (toString maxMatches).data
          ++ (" of ").data ++ (toString lines.length).data ++ (" matches)").data
      else output

/-- `name.startswith(".")` — the hidden-entry test of list_files. -/
def isHidden : List Char → Bool
  | [] => false
  | c :: _ => c = '.'

/-- A path is hidden-free when no `/`-separated component starts with a dot. -/
def hfPath (p : List Char) : Bool :=
  (splitOnChar '/' p).all (fun comp => !isHidden comp)

/-- A name is a single path component: it contains no separator. -/
def noSlash (nm : List Char) : Bool := !(nm.contains '/')

/-- `os.path.relpath(os.path.join(root, name), path)` for a walk rooted at
`path`: the name itself at the top level, `pre ++ "/" ++ name` below. -/
def joinRel (pre nm : List Char) : List Char :=
  if pre = [] then nm else pre ++ '/' :: nm

mutual
/-- A directory tree as seen by `os.walk`: named files and named directories
with ordered children. `Forest` is the ordered child list. -/
inductive Node where
  | file (nm : List Char)
  | dir (nm : List Char) (children : Forest)
inductive Forest where
  | nil
  | cons (n : Node) (f : Forest)
end

mutual
/-- The entries `list_files` collects while walking: a hidden file is
filtered out, a hidden directory is pruned — its entry is not emitted and its
children are never walked. Within one directory the source emits all
directory names, then all file names, then recurses; since the result is
sorted afterwards, the interleaving used here (each child contributing its
entry followed by its subtree) yields the same final output. -/
def walkNode (pre : List Char) : Node → List (List Char)
  | .file nm => if isHidden nm then [] else [joinRel pre nm]
  | .dir nm cs =>
    if isHidden nm then []
    else (joinRel pre nm ++ ['/']) :: walkForest (joinRel pre nm) cs
def walkForest (pre : List Char) : Forest → List (List Char)
  | .nil => []
  | .cons n f => walkNode pre n ++ walkForest pre f
end

mutual
/-- Well-formed trees: every name is a single path component. -/
def validNode : Node → Bool
  | .file nm => noSlash nm
  | .dir nm cs => noSlash nm && validForest cs
def validForest : Forest → Bool
  | .nil => true
  | .cons n f => validNode n && validForest f
end

/-- Python string comparison (`sorted` on str): lexicographic by code point,
a strict prefix sorting first. -/
def lexLe : List Char → List Char → Bool
  | [], _ => true
  | _ :: _, [] => false
  | a :: as, b :: bs => if a < b then true else if b < a then false else lexLe as bs

/-- The ordering relation `sorted(entries)` uses. -/
def pyLe (x y : List Char) : Prop := lexLe x y = true

instance : DecidableRel pyLe := fun x y => instDecidableEqBool (lexLe x y) true

/-- `list_files` on a directory tree: collect the visible entries and return
them sorted (`json.dumps(sorted(entries), indent=2)` minus the JSON
serialization, which carries the array through unchanged). -/
def listFiles (f : Forest) : List (List Char) :=
  List.insertionSort pyLe (walkForest [] f)

/-- The spec's worked example: the tree containing a.txt, .git/x, sub/b.txt. -/
def exampleTree : Forest :=
  Forest.cons (Node.file ("a.txt").data)
    (Forest.cons (Node.dir (".git").data (Forest.cons (Node.file ['x']) Forest.nil))
      (Forest.cons (Node.dir ("sub").data (Forest.cons (Node.file ("b.txt").data) Forest.nil))
        Forest.nil))

/-- The declared type of a schema field (spec §4.2: string/number/boolean). -/
inductive FieldType where
  | str
  | num
  | bool
deriving DecidableEq

/-- A runtime value in a tool-call payload. -/
inductive Value where
  | str (s : List Char)
  | num (n : Int)
  | bool (b : Bool)
  | null
deriving DecidableEq

/-- One declared schema field: name, type, whether required, whether the
declared type admits None (models `str | None`), and the declared default. -/
structure FieldSpec where
  name : List Char
  ty : FieldType
  required : Bool
  nullable : Bool
  default : Option Value
deriving DecidableEq

/-- A validation failure for one field. -/
inductive VErr where
  | missingRequired (field : List Char)
  | typeMismatch (field : List Char)
deriving DecidableEq

/-- Does a present value's runtime type match the declared type? -/
def typeMatches (v : Value) (f : FieldSpec) : Bool :=
  match v, f.ty with
  | Value.str _, FieldType.str => true
  | Value.num _, FieldType.num => true
  | Value.bool _, FieldType.bool => true
  | Value.null, _ => f.nullable
  | _, _ => false

/-- Modelled from the spec: the Input Validator (spec §4.2) realized in the
source by the external pydantic `model_validate`, which is not part of this
repository. Per declared field: absent and required gives MissingRequiredField,
absent and optional applies the declared default, present with the wrong
runtime type gives TypeMismatch; errors are collected per field as pydantic
reports all of them. -/
def fieldErr (raw : List (List Char × Value)) (f : FieldSpec) : List VErr :=
  match assocLookup raw f.name with
  | some v => if typeMatches v f then [] else [VErr.typeMismatch f.name]
  | none => if f.required then [VErr.missingRequired f.name] else []

/-- Modelled from the spec: the validated parameter a declared field
contributes (spec §4.2) — the present well-typed value, or the declared
default when absent and optional. Fields not declared in the schema are
never consulted: unknown extras are ignored. -/
def fieldParam (raw : List (List Char × Value)) (f : FieldSpec) :
    List (List Char × Value) :=
  match assocLookup raw f.name with
  | some v => if typeMatches v f then [(f.name, v)] else []
  | none =>
    if f.required then []
    else
      match f.default with
      | some d => [(f.name, d)]
      | none => []

/-- Modelled from the spec: `model_validate` as the spec's Input Validator —
either the full error list or the fully-typed parameter set in schema order. -/
def validate (schema : List FieldSpec) (raw : List (List Char × Value)) :
    Except (List VErr) (List (List Char × Value)) :=
  let errs := (schema.map (fieldErr raw)).flatten
  if errs.isEmpty then Except.ok (schema.map (fieldParam raw)).flatten
  else Except.error errs

/-- A registered tool: its input schema and its handler. Handlers are total
functions into text — the failure boundary of the source lives inside each
handler, which catches its own faults and returns error text as data. -/
structure ToolEntry where
  schema : List FieldSpec
  run : List (List Char × Value) → List Char

/-- The `tool` decorator's registration step: `TOOLS[name] = {...}`, a plain
Python dict assignment. -/
def registerTool (reg : List (List Char × ToolEntry)) (name : List Char)
    (t : ToolEntry) : List (List Char × ToolEntry) :=
  pyDictInsert reg name t

/-- Rendering of one validation error inside the dispatcher's text (the
source interpolates pydantic's `e.errors()`; the exact rendering is opaque
to every claim, only the prefix before it matters). -/
def renderVErr : VErr → List Char
  | VErr.missingRequired f => ("missing required field ").data ++ f
  | VErr.typeMismatch f => ("type mismatch for field ").data ++ f

/-- Rendering of the collected validation errors. -/
def renderVErrs (errs : List VErr) : List Char :=
  List.intercalate ("; ").data (errs.map renderVErr)

/-- `execute_tool(name, tool_input)` from agent_06_search.py: look the name
up in TOOLS (absence is the "Unknown tool" text, not an error), validate the
raw input (failure is the "Invalid input for" text), otherwise call the
handler on the validated parameters. Totality of this function is the
embedding of "never raises; always returns text". -/
def executeTool (reg : List (List Char × ToolEntry)) (name : List Char)
    (input : List (List Char × Value)) : List Char :=
  match assocLookup reg name with
  | none => ("Unknown tool: ").data ++ name
  | some t =>
    match validate t.schema input with
    | Except.error errs =>
        ("Invalid input for ").data ++ name ++ (": ").data ++ renderVErrs errs
    | Except.ok params => t.run params

/-- Input schema of read_file (`ReadFileInput`). -/
def readFileSchema : List FieldSpec :=
  [⟨("path").data, FieldType.str, true, false, none⟩]

/-- Input schema of list_files (`ListFilesInput`). -/
def listFilesSchema : List FieldSpec :=
  [⟨("path").data, FieldType.str, false, false, some (Value.str (".").data)⟩]

/-- Input schema of bash (`BashInput`). -/
def bashSchema : List FieldSpec :=
  [⟨("command").data, FieldType.str, true, false, none⟩]

/-- Input schema of edit_file (`EditFileInput`). -/
def editFileSchema : List FieldSpec :=
  [⟨("path").data, FieldType.str, true, false, none⟩,
   ⟨("old_str").data, FieldType.str, true, false, none⟩,
   ⟨("new_str").data, FieldType.str, true, false, none⟩]

/-- Input schema of code_search (`CodeSearchInput`). -/
def codeSearchSchema : List FieldSpec :=
  [⟨("pattern").data, FieldType.str, true, false, none⟩,
   ⟨("path").data, FieldType.str, false, false, some (Value.str (".").data)⟩,
   ⟨("file_type").data, FieldType.str, false, true, some Value.null⟩,
   ⟨("case_sensitive").data, FieldType.bool, false, false, some (Value.bool false)⟩]

/-- A copy of the bash entry used to exercise registration. -/
def entryA : ToolEntry := ⟨bashSchema, fun _ => ("A").data⟩

/-- A second, different entry registered under the same name. -/
def entryB : ToolEntry := ⟨[], fun _ => ("B").data⟩

/-- The edit_file registry entry used to exercise the dispatcher. -/
def entryEdit : ToolEntry := ⟨editFileSchema, fun _ => ("edited").data⟩

/-- A one-tool registry holding edit_file. -/
def reg1 : List (List Char × ToolEntry) :=
  registerTool [] ("edit_file").data entryEdit

/-- One content block of an assistant response: text, or a tool-use block
carrying the model-issued correlation id, tool name and raw input. -/
inductive ContentBlock where
  | text (s : List Char)
  | toolUse (callId : List Char) (name : List Char) (input : List (List Char × Value))
deriving DecidableEq

/-- One conversation turn as Agent.run appends them: the user's text, the
assistant's blocks appended verbatim, or the user-role turn whose content is
the list of (tool_use_id, result text) pairs. -/
inductive Turn where
  | user (s : List Char)
  | assistant (blocks : List ContentBlock)
  | toolResults (rs : List (List Char × List Char))
deriving DecidableEq

/-- `[b for b in response.content if b.type == "tool_use"]`. -/
def toolUses (bs : List ContentBlock) :
    List (List Char × List Char × List (List Char × Value)) :=
  bs.filterMap (fun b =>
    match b with
    | ContentBlock.toolUse i n inp => some (i, n, inp)
    | ContentBlock.text _ => none)

/-- The correlation ids of the tool-use blocks, in request order. -/
def toolIds (bs : List ContentBlock) : List (List Char) :=
  (toolUses bs).map (fun u => u.1)

/-- The inner loop of Agent.run against a scripted model adapter: `script`
lists the adapter's successive responses. Each response is appended as an
assistant turn; with no tool-use blocks the loop breaks (the text is printed
and control returns to the user prompt); otherwise every tool call is
executed in order through `e` (the dispatcher), the single aggregated
tool-results turn is appended, and only then is the next response taken. An
exhausted script ends the run as-is. -/
def runInner (e : List Char → List (List Char × Value) → List Char) :
    List (List ContentBlock) → List Turn → List Turn
  | [], conv => conv
  | resp :: rest, conv =>
    if toolUses resp = [] then conv ++ [Turn.assistant resp]
    else
      runInner e rest ((conv ++ [Turn.assistant resp]) ++
        [Turn.toolResults ((toolUses resp).map (fun u => (u.1, e u.2.1 u.2.2)))])

/-- The spec's pairing invariant as a scan over the conversation: every
assistant turn with tool-use blocks is followed immediately by one
tool-results turn whose ids are exactly the request ids in order. The
`Option` state holds the ids the next turn must answer. -/
def wfFrom : Option (List (List Char)) → List Turn → Bool
  | none, [] => true
  | some _, [] => false
  | some ids, Turn.toolResults rs :: rest =>
      decide (rs.map Prod.fst = ids) && wfFrom none rest
  | some _, Turn.user _ :: _ => false
  | some _, Turn.assistant _ :: _ => false
  | none, Turn.assistant bs :: rest =>
      if toolIds bs = [] then wfFrom none rest else wfFrom (some (toolIds bs)) rest
  | none, Turn.user _ :: rest => wfFrom none rest
  | none, Turn.toolResults _ :: rest => wfFrom none rest

/-- A conversation satisfying the pairing invariant from the start. -/
def wfConv (conv : List Turn) : Bool := wfFrom none conv

/-- The spec's scripted exchange: one tool call, then plain text. -/
def script2 : List (List ContentBlock) :=
  [[ContentBlock.toolUse ("id1").data ("bash").data
      [(("command").data, Value.str ("echo hi").data)]],
   [ContentBlock.text ("done").data]]

theorem assocLookup_map_replace {α : Type} (l : List (List Char × α)) (k : List Char)
    (v : α) (h : (assocLookup l k).isSome) :
    assocLookup (l.map (fun p => if p.1 = k then (k, v) else p)) k = some v := by
  induction l with
  | nil => simp [assocLookup] at h
  | cons p rest ih =>
    by_cases hk : p.1 = k
    · simp [assocLookup, hk]
    · simp only [assocLookup, hk, if_false] at h
      simpa [assocLookup, hk] using ih h

theorem assocLookup_append_of_none {α : Type} (l l2 : List (List Char × α)) (k : List Char)
    (h : assocLookup l k = none) :
    assocLookup (l ++ l2) k = assocLookup l2 k := by
  induction l with
  | nil => simp
  | cons p rest ih =>
    by_cases hk : p.1 = k
    · simp [assocLookup, hk] at h
    · simp only [assocLookup, hk, if_false] at h
      simpa [assocLookup, hk] using ih h

theorem assocLookup_pyDictInsert {α : Type} (l : List (List Char × α)) (k : List Char)
    (v : α) : assocLookup (pyDictInsert l k v) k = some v := by
  unfold pyDictInsert
  by_cases h : (assocLookup l k).isSome
  · simpa [h] using assocLookup_map_replace l k v h
  · have hn : assocLookup l k = none := by
      cases hv : assocLookup l k
      · rfl
      · simp [hv] at h
    simp [h, assocLookup_append_of_none l _ k hn, assocLookup]

theorem keys_map_replace {α : Type} (l : List (List Char × α)) (k : List Char) (v : α) :
    (l.map (fun p => if p.1 = k then (k, v) else p)).map Prod.fst = l.map Prod.fst := by
  induction l with
  | nil => rfl
  | cons p rest ih =>
    by_cases hk : p.1 = k
    · simp [hk, ih]
    · simp [hk, ih]

theorem keys_pyDictInsert_of_mem {α : Type} (l : List (List Char × α)) (k : List Char)
    (v : α) (h : (assocLookup l k).isSome) :
    (pyDictInsert l k v).map Prod.fst = l.map Prod.fst := by
  unfold pyDictInsert
  rw [if_pos h]
  exact keys_map_replace l k v

/-- If `pat` occurs at least once (in Python's non-overlapping count), the
content splits around the leftmost occurrence and `replace(pat, rep, 1)`
rewrites exactly that occurrence, leaving everything else untouched. -/
theorem replaceFirst_decomp (pat rep : List Char) (hp : pat ≠ []) :
    ∀ s : List Char, 0 < countOcc pat s →
      ∃ a b, s = a ++ pat ++ b ∧ replaceFirst pat rep s = a ++ rep ++ b := by
  intro s
  induction s with
  | nil => simp [countOcc, countOccAux, hp]
  | cons c rest ih =>
    intro hcnt
    by_cases hpre : pat.isPrefixOf (c :: rest)
    · have hisp : pat <+: c :: rest := List.isPrefixOf_iff_prefix.mp hpre
      obtain ⟨t, ht⟩ := hisp
      refine ⟨[], t, ht.symm, ?_⟩
      have hdrop : (c :: rest).drop pat.length = t := by
        rw [← ht]; exact List.drop_left pat t
      simp [replaceFirst, hpre, hdrop]
    · have hred : countOcc pat (c :: rest) = countOcc pat rest := by
        simp [countOcc, countOccAux, hpre]
      rw [hred] at hcnt
      obtain ⟨a, b, hs, hr⟩ := ih hcnt
      refine ⟨c :: a, b, by simp [hs], ?_⟩
      simp [replaceFirst, hpre, hr]

/-- C3: with a non-empty `old_str` different from `new_str` on an existing
file, `edit_file` replaces the unique occurrence and keeps every other byte,
and with zero or several occurrences it leaves the filesystem untouched and
returns the corresponding error text. -/
theorem edit_file_exact_match (fs : FS) (path old new content : List Char)
    (hpath : path ≠ []) (hold : old ≠ []) (hne : old ≠ new)
    (hread : fsRead fs path = some content) :
    (countOcc old content = 1 →
      ∃ a b, content = a ++ old ++ b ∧
        editFile fs path old new =
          (fsWrite fs path (a ++ new ++ b), ("Successfully edited ").data ++ path) ∧
        fsRead (editFile fs path old new).1 path = some (a ++ new ++ b)) ∧
    (countOcc old content = 0 →
      editFile fs path old new =
        (fs, ("Error: ").data ++ [quoteChar] ++ previewOf old ++ [quoteChar]
          ++ (" not found in ").data ++ path)) ∧
    (∀ n, countOcc old content = n → 1 < n →
      editFile fs path old new =
        (fs, ("Error: ").data ++ [quoteChar] ++ previewOf old ++ [quoteChar]
          ++ (" found ").data ++ (toString n).data
          ++ (" times, need exactly 1 match. Include more context to make it unique.").data)) := by
  refine ⟨?_, ?_, ?_⟩
  · intro h1
    obtain ⟨a, b, hsplit, hrepl⟩ :=
      replaceFirst_decomp old new hold content (by omega)
    refine ⟨a, b, hsplit, ?_⟩
    have hedit : editFile fs path old new =
        (fsWrite fs path (a ++ new ++ b), ("Successfully edited ").data ++ path) := by
      simp [editFile, hpath, hne, hold, hread, h1, hrepl]
    exact ⟨hedit, by rw [hedit]; exact assocLookup_pyDictInsert fs path (a ++ new ++ b)⟩
  · intro h0
    simp [editFile, hpath, hne, hold, hread, h0]
  · intro n hn hgt
    simp only [editFile, hpath, hne, hold, hread, hn, if_neg hpath]
    simp [hne, hold, hgt]
    omega

/-- Witness for `edit_file_exact_match` on the file "ab" with the unique
occurrence of "a" replaced by "X". -/
theorem edit_file_exact_match_witness :
    ∃ a b, ("ab").data = a ++ ("a").data ++ b ∧
      editFile [(("p").data, ("ab").data)] ("p").data ("a").data ("X").data =
        (fsWrite [(("p").data, ("ab").data)] ("p").data (a ++ ("X").data ++ b),
          ("Successfully edited ").data ++ ("p").data) ∧
      fsRead (editFile [(("p").data, ("ab").data)] ("p").data ("a").data ("X").data).1
          ("p").data = some (a ++ ("X").data ++ b) :=
  (edit_file_exact_match [(("p").data, ("ab").data)] ("p").data ("a").data ("X").data
    ("ab").data (by decide) (by decide) (by decide) (by decide)).1 (by decide)

/-- C4: `edit_file` with empty `old_str` and non-empty `new_str` creates the
file with content `new_str` when absent, and appends `new_str` when present;
reading afterwards returns the concatenation. -/
theorem edit_file_create_append (fs : FS) (path new : List Char)
    (hpath : path ≠ []) (hnew : new ≠ []) :
    (fsRead fs path = none →
      editFile fs path [] new = (fsWrite fs path new, ("Created new file: ").data ++ path) ∧
      fsRead (editFile fs path [] new).1 path = some new) ∧
    (∀ content, fsRead fs path = some content →
      editFile fs path [] new =
        (fsWrite fs path (content ++ new), ("Appended to file: ").data ++ path) ∧
      fsRead (editFile fs path [] new).1 path = some (content ++ new)) := by
  have hne : ([] : List Char) ≠ new := fun h => hnew h.symm
  constructor
  · intro habs
    have hedit : editFile fs path [] new =
        (fsWrite fs path new, ("Created new file: ").data ++ path) := by
      simp [editFile, hpath, hne, habs]
    exact ⟨hedit, by rw [hedit]; exact assocLookup_pyDictInsert fs path new⟩
  · intro content hpres
    have hedit : editFile fs path [] new =
        (fsWrite fs path (content ++ new), ("Appended to file: ").data ++ path) := by
      simp [editFile, hpath, hne, hpres]
    exact ⟨hedit, by rw [hedit]; exact assocLookup_pyDictInsert fs path (content ++ new)⟩

/-- Witness for `edit_file_create_append`: creating "c" at a fresh path and
appending "c" to an existing file "ab". -/
theorem edit_file_create_append_witness :
    (editFile [] ("p").data [] ("c").data =
      (fsWrite [] ("p").data ("c").data, ("Created new file: ").data ++ ("p").data) ∧
     fsRead (editFile [] ("p").data [] ("c").data).1 ("p").data = some ("c").data) ∧
    (editFile [(("p").data, ("ab").data)] ("p").data [] ("c").data =
      (fsWrite [(("p").data, ("ab").data)] ("p").data (("ab").data ++ ("c").data),
        ("Appended to file: ").data ++ ("p").data) ∧
     fsRead (editFile [(("p").data, ("ab").data)] ("p").data [] ("c").data).1 ("p").data
       = some (("ab").data ++ ("c").data)) :=
  ⟨(edit_file_create_append [] ("p").data ("c").data (by decide) (by decide)).1 rfl,
   (edit_file_create_append [(("p").data, ("ab").data)] ("p").data ("c").data
     (by decide) (by decide)).2 ("ab").data rfl⟩

/-- C10: calling `edit_file` with `old_str = new_str = ""` never touches the
filesystem, and (for a non-empty path) returns the identical-strings error:
the identity check precedes the create/append branch, so no empty file is
ever created and no empty append is ever performed. -/
theorem edit_file_empty_empty (fs : FS) (path : List Char) :
    (editFile fs path [] []).1 = fs ∧
    (path ≠ [] →
      editFile fs path [] [] =
        (fs, ("Error: old_str and new_str cannot be identical").data)) := by
  by_cases hpath : path = []
  · subst hpath
    exact ⟨by simp [editFile], fun h => absurd rfl h⟩
  · have hedit : editFile fs path [] [] =
        (fs, ("Error: old_str and new_str cannot be identical").data) := by
      simp [editFile, hpath]
    exact ⟨by rw [hedit], fun _ => hedit⟩

/-- Witness for `edit_file_empty_empty` at a concrete path and filesystem. -/
theorem edit_file_empty_empty_witness :
    editFile [] ("p").data [] [] =
      ([], ("Error: old_str and new_str cannot be identical").data) :=
  (edit_file_empty_empty [] ("p").data).2 (by decide)

/-- C6 counterexample: on a zero-exit command whose output carries leading
whitespace, the code strips both ends (Python `strip()`), not only the
trailing whitespace the claim describes. -/
theorem bash_strip_counterexample :
    bashModel ⟨(" hi").data, [], 0⟩ = ("hi").data ∧
    bashClaimed ⟨(" hi").data, [], 0⟩ = (" hi").data ∧
    bashModel ⟨(" hi").data, [], 0⟩ ≠ bashClaimed ⟨(" hi").data, [], 0⟩ := by
  refine ⟨by decide, by decide, by decide⟩

/-- C6 as amended: output is stdout then stderr; a non-zero exit returns the
failure text with the raw combined output; a zero exit returns the sentinel
on empty combined output and otherwise the combined output with leading and
trailing whitespace stripped. -/
theorem bash_output_contract (r : ProcResult) :
    (r.exitCode ≠ 0 →
      bashModel r = ("Command failed (exit ").data ++ (toString r.exitCode).data
        ++ ("):\n").data ++ (r.stdout ++ r.stderr)) ∧
    (r.exitCode = 0 → r.stdout ++ r.stderr = [] → bashModel r = ("(no output)").data) ∧
    (r.exitCode = 0 → r.stdout ++ r.stderr ≠ [] →
      bashModel r = pyStrip (r.stdout ++ r.stderr)) := by
  refine ⟨fun h => by simp [bashModel, h], fun h he => by simp [bashModel, h, he],
    fun h he => by simp [bashModel, h, he]⟩

/-- Witness for `bash_output_contract`: the spec's own two examples,
`bash("exit 3")` (exit 3, empty output) and `bash("echo hi")`. -/
theorem bash_output_contract_witness :
    bashModel ⟨[], [], 3⟩ = ("Command failed (exit 3):\n").data ∧
    bashModel ⟨("hi\n").data, [], 0⟩ = ("hi").data := by
  constructor
  · have h := (bash_output_contract ⟨[], [], 3⟩).1 (by decide)
    rw [h]; decide
  · have h := (bash_output_contract ⟨("hi\n").data, [], 0⟩).2.2 (by decide) (by decide)
    rw [h]; decide

/-- C8: exit code 1 (ripgrep: nothing found) returns exactly
"No matches found"; with more than 50 result lines the text is exactly the
first 50 lines joined by newlines followed by the summary line naming 50 and
the true total. -/
theorem code_search_truncation (r : ProcResult) :
    (r.exitCode = 1 → codeSearchModel r = ("No matches found").data) ∧
    (r.exitCode = 0 → (splitOnChar '\n' (pyStrip r.stdout)).length > 50 →
      codeSearchModel r =
        List.intercalate ['\n'] ((splitOnChar '\n' (pyStrip r.stdout)).take 50)
          ++ ("\n\n... (showing first ").data ++ (toString 50).data
          ++ (" of ").data ++ (toString (splitOnChar '\n' (pyStrip r.stdout)).length).data
          ++ (" matches)").data) := by
  constructor
  · intro h1
    simp [codeSearchModel, h1]
  · intro h0 hlen
    have hne : pyStrip r.stdout ≠ [] := by
      intro he
      rw [he] at hlen
      simp [splitOnChar] at hlen
    simp [codeSearchModel, h0, hne, maxMatches, hlen]

/-- Witness for `code_search_truncation`: a clean run whose output is 51
one-character lines, and a no-match exit. -/
theorem code_search_truncation_witness :
    codeSearchModel ⟨[], [], 1⟩ = ("No matches found").data ∧
    codeSearchModel ⟨List.intercalate ['\n'] (List.replicate 51 ['a']), [], 0⟩ =
      List.intercalate ['\n'] (List.replicate 50 ['a'])
        ++ ("\n\n... (showing first ").data ++ (toString 50).data
        ++ (" of ").data ++ (toString 51).data ++ (" matches)").data := by
  constructor
  · exact (code_search_truncation ⟨[], [], 1⟩).1 (by decide)
  · have h := (code_search_truncation
      ⟨List.intercalate ['\n'] (List.replicate 51 ['a']), [], 0⟩).2 (by decide) (by decide)
    rw [h]; decide

theorem lexLe_total : ∀ x y : List Char, lexLe x y = true ∨ lexLe y x = true := by
  intro x
  induction x with
  | nil => intro y; left; rfl
  | cons a as ih =>
    intro y
    cases y with
    | nil => right; rfl
    | cons b bs =>
      rcases lt_trichotomy a b with hab | hab | hab
      · left; simp [lexLe, hab]
      · subst hab
        rcases ih bs with h | h
        · left; simp [lexLe, lt_irrefl, h]
        · right; simp [lexLe, lt_irrefl, h]
      · right; simp [lexLe, hab]

theorem lexLe_cons_iff (a b : Char) (as bs : List Char) :
    lexLe (a :: as) (b :: bs) = true ↔ a < b ∨ (a = b ∧ lexLe as bs = true) := by
  by_cases hab : a < b
  · simp [lexLe, hab]
  · by_cases hba : b < a
    · have hne : ¬ a = b := by
        intro hEq
        rw [hEq] at hba
        exact lt_irrefl b hba
      simp [lexLe, hab, hba, hne]
    · have heq : a = b := le_antisymm (not_lt.mp hba) (not_lt.mp hab)
      simp [lexLe, hab, hba, heq]

theorem lexLe_trans : ∀ x y z : List Char,
    lexLe x y = true → lexLe y z = true → lexLe x z = true := by
  intro x
  induction x with
  | nil => intro y z _ _; rfl
  | cons a as ih =>
    intro y z hxy hyz
    cases y with
    | nil => simp [lexLe] at hxy
    | cons b bs =>
      cases z with
      | nil => simp [lexLe] at hyz
      | cons c cs =>
        rw [lexLe_cons_iff] at hxy hyz ⊢
        rcases hxy with hab | ⟨hab, hxy'⟩
        · rcases hyz with hbc | ⟨hbc, _⟩
          · exact Or.inl (lt_trans hab hbc)
          · exact Or.inl (hbc ▸ hab)
        · rcases hyz with hbc | ⟨hbc, hyz'⟩
          · exact Or.inl (hab ▸ hbc)
          · exact Or.inr ⟨hab.trans hbc, ih bs cs hxy' hyz'⟩

theorem splitOnChar_ne_nil (sep : Char) (l : List Char) : splitOnChar sep l ≠ [] := by
  cases l with
  | nil => simp [splitOnChar]
  | cons c rest =>
    by_cases h : c = sep
    · simp [splitOnChar, h]
    · simp only [splitOnChar, h, if_false]
      cases splitOnChar sep rest <;> simp

theorem splitOnChar_append_sep (sep : Char) (xs ys : List Char) :
    splitOnChar sep (xs ++ sep :: ys) = splitOnChar sep xs ++ splitOnChar sep ys := by
  induction xs with
  | nil => simp [splitOnChar]
  | cons c rest ih =>
    by_cases h : c = sep
    · simp [splitOnChar, h, ih]
    · simp only [List.cons_append, splitOnChar, h, if_false, List.append_eq]
      rw [ih]
      cases hs : splitOnChar sep rest with
      | nil => exact absurd hs (splitOnChar_ne_nil sep rest)
      | cons r rs => simp

theorem splitOnChar_no_sep (sep : Char) (nm : List Char) (h : nm.contains sep = false) :
    splitOnChar sep nm = [nm] := by
  induction nm with
  | nil => rfl
  | cons c rest ih =>
    rw [List.contains_cons] at h
    have hc : ¬ c = sep := by
      intro he; simp [he] at h
    have hrest : rest.contains sep = false := by
      rcases Bool.or_eq_false_iff.mp h with ⟨_, h2⟩; exact h2
    simp [splitOnChar, hc, ih hrest]

theorem hfPath_nil : hfPath [] = true := by decide

theorem hfPath_joinRel (pre nm : List Char) (hp : hfPath pre = true)
    (hn : noSlash nm = true) (hh : isHidden nm = false) :
    hfPath (joinRel pre nm) = true := by
  have hns : nm.contains '/' = false := by
    unfold noSlash at hn
    exact Bool.not_eq_true' .. |>.mp hn
  by_cases hpre : pre = []
  · simp [joinRel, hpre, hfPath, splitOnChar_no_sep '/' nm hns, hh]
  · unfold hfPath at hp ⊢
    simp only [joinRel, hpre, if_false, splitOnChar_append_sep,
      splitOnChar_no_sep '/' nm hns, List.all_append]
    simp [hp, hh]

theorem hfPath_dirSuffix (q : List Char) (hq : hfPath q = true) :
    hfPath (q ++ ['/']) = true := by
  unfold hfPath at hq ⊢
  have h2 : (q ++ ['/'] : List Char) = q ++ '/' :: [] := rfl
  rw [h2, splitOnChar_append_sep, List.all_append, hq]
  decide

mutual
theorem walkNode_hiddenFree (pre : List Char) (n : Node) (hv : validNode n = true)
    (hp : hfPath pre = true) : ∀ e ∈ walkNode pre n, hfPath e = true := by
  cases n with
  | file nm =>
    intro e he
    by_cases hh : isHidden nm = true
    · simp [walkNode, hh] at he
    · have hh' : isHidden nm = false := Bool.not_eq_true _ |>.mp hh
      simp only [walkNode, hh', Bool.false_eq_true, if_false, List.mem_singleton] at he
      subst he
      exact hfPath_joinRel pre nm hp hv hh'
  | dir nm cs =>
    intro e he
    by_cases hh : isHidden nm = true
    · simp [walkNode, hh] at he
    · have hh' : isHidden nm = false := Bool.not_eq_true _ |>.mp hh
      have hv' : noSlash nm = true ∧ validForest cs = true := by
        simpa [validNode] using hv
      simp only [walkNode, hh', Bool.false_eq_true, if_false, List.mem_cons] at he
      rcases he with he | he
      · subst he
        exact hfPath_dirSuffix _ (hfPath_joinRel pre nm hp hv'.1 hh')
      · exact walkForest_hiddenFree (joinRel pre nm) cs hv'.2
          (hfPath_joinRel pre nm hp hv'.1 hh') e he

theorem walkForest_hiddenFree (pre : List Char) (f : Forest) (hv : validForest f = true)
    (hp : hfPath pre = true) : ∀ e ∈ walkForest pre f, hfPath e = true := by
  cases f with
  | nil => intro e he; simp [walkForest] at he
  | cons n f' =>
    intro e he
    have hv' : validNode n = true ∧ validForest f' = true := by
      simpa [validForest] using hv
    simp only [walkForest, List.mem_append] at he
    rcases he with he | he
    · exact walkNode_hiddenFree pre n hv'.1 hp e he
    · exact walkForest_hiddenFree pre f' hv'.2 hp e he
end

/-- C7: `list_files` output is sorted; on a well-formed tree no entry has a
hidden component; a hidden directory is pruned outright, its contents never
contributing regardless of what they are; and the spec's example tree yields
exactly a.txt, sub/, sub/b.txt. -/
theorem list_files_contract :
    (∀ f : Forest, List.Sorted pyLe (listFiles f)) ∧
    (∀ f : Forest, validForest f = true → ∀ e ∈ listFiles f, hfPath e = true) ∧
    (∀ (pre nm : List Char) (cs : Forest), isHidden nm = true →
      walkNode pre (Node.dir nm cs) = []) ∧
    listFiles exampleTree = [("a.txt").data, ("sub/").data, ("sub/b.txt").data] := by
  refine ⟨fun f => @List.sorted_insertionSort (List Char) pyLe _ ⟨lexLe_total⟩
    ⟨fun x y z => lexLe_trans x y z⟩ (walkForest [] f), ?_, ?_, by decide⟩
  · intro f hv e he
    rw [listFiles, List.mem_insertionSort] at he
    exact walkForest_hiddenFree [] f hv hfPath_nil e he
  · intro pre nm cs hh
    simp [walkNode, hh]

/-- Witness for `list_files_contract` on the example tree: its output is
hidden-free entry-wise and the hidden directory .git is pruned. -/
theorem list_files_contract_witness :
    hfPath ("sub/b.txt").data = true ∧
    walkNode [] (Node.dir (".git").data (Forest.cons (Node.file ['x']) Forest.nil)) = [] :=
  ⟨list_files_contract.2.1 exampleTree (by decide) ("sub/b.txt").data (by decide),
   list_files_contract.2.2.1 [] (".git").data (Forest.cons (Node.file ['x']) Forest.nil)
     (by decide)⟩

theorem assocLookup_append_not_mem {α : Type} (raw extra : List (List Char × α))
    (n : List Char) (h : ∀ p ∈ extra, p.1 ≠ n) :
    assocLookup (raw ++ extra) n = assocLookup raw n := by
  induction raw with
  | nil =>
    simp only [List.nil_append]
    induction extra with
    | nil => rfl
    | cons p rest ih =>
      have hp : ¬ p.1 = n := h p (List.mem_cons_self p rest)
      simp only [assocLookup, hp, if_false]
      exact ih (fun q hq => h q (List.mem_cons_of_mem p hq))
  | cons p rest ih =>
    by_cases hk : p.1 = n
    · simp [assocLookup, hk]
    · simp only [List.cons_append, assocLookup, hk, if_false]
      exact ih

/-- C9: validation fails (with that field's type-mismatch error collected)
whenever a present declared field has the wrong runtime type, and fields not
declared in the schema never change the outcome — the raw input extended
with unknown extras validates exactly as the input without them. -/
theorem validator_contract :
    (∀ (schema : List FieldSpec) (raw : List (List Char × Value)) (f : FieldSpec)
       (v : Value), f ∈ schema → assocLookup raw f.name = some v →
       typeMatches v f = false →
       ∃ errs, validate schema raw = Except.error errs ∧
         VErr.typeMismatch f.name ∈ errs) ∧
    (∀ (schema : List FieldSpec) (raw extra : List (List Char × Value)),
      (∀ p ∈ extra, ∀ f ∈ schema, p.1 ≠ f.name) →
      validate schema (raw ++ extra) = validate schema raw) := by
  constructor
  · intro schema raw f v hf hlook hty
    have hmem : VErr.typeMismatch f.name ∈ (schema.map (fieldErr raw)).flatten := by
      rw [List.mem_flatten]
      refine ⟨fieldErr raw f, List.mem_map_of_mem _ hf, ?_⟩
      simp [fieldErr, hlook, hty]
    have hne : ¬ ((schema.map (fieldErr raw)).flatten.isEmpty = true) := by
      rw [List.isEmpty_iff]
      exact List.ne_nil_of_mem hmem
    refine ⟨(schema.map (fieldErr raw)).flatten, ?_, hmem⟩
    simp [validate, hne]
  · intro schema raw extra h
    have herr : schema.map (fieldErr (raw ++ extra)) = schema.map (fieldErr raw) := by
      refine List.map_congr_left ?_
      intro f hf
      have hlook : assocLookup (raw ++ extra) f.name = assocLookup raw f.name :=
        assocLookup_append_not_mem raw extra f.name (fun p hp => h p hp f hf)
      simp [fieldErr, hlook]
    have hpar : schema.map (fieldParam (raw ++ extra)) = schema.map (fieldParam raw) := by
      refine List.map_congr_left ?_
      intro f hf
      have hlook : assocLookup (raw ++ extra) f.name = assocLookup raw f.name :=
        assocLookup_append_not_mem raw extra f.name (fun p hp => h p hp f hf)
      simp [fieldParam, hlook]
    simp only [validate, herr, hpar]

/-- Witness for `validator_contract`: a numeric `pattern` for code_search
fails with its type mismatch collected, and a bogus extra field on a bash
input leaves validation unchanged. -/
theorem validator_contract_witness :
    (∃ errs,
      validate codeSearchSchema [(("pattern").data, Value.num 1)] = Except.error errs ∧
      VErr.typeMismatch ("pattern").data ∈ errs) ∧
    validate bashSchema
        ([(("command").data, Value.str ("ls").data)] ++ [(("bogus").data, Value.num 1)]) =
      validate bashSchema [(("command").data, Value.str ("ls").data)] :=
  ⟨validator_contract.1 codeSearchSchema [(("pattern").data, Value.num 1)]
      ⟨("pattern").data, FieldType.str, true, false, none⟩ (Value.num 1)
      (by decide) (by decide) (by decide),
   validator_contract.2 bashSchema [(("command").data, Value.str ("ls").data)]
      [(("bogus").data, Value.num 1)] (by decide)⟩

/-- C1: the dispatcher resolves, validates, and only then runs the handler:
an unregistered name yields exactly the "Unknown tool" text, a validation
failure yields text beginning "Invalid input for {name}: ", and otherwise
the handler's text is returned as-is. `executeTool` is a total function into
text, and every handler is as well, embedding "never raises". -/
theorem execute_tool_contract (reg : List (List Char × ToolEntry)) (name : List Char)
    (input : List (List Char × Value)) :
    (assocLookup reg name = none →
      executeTool reg name input = ("Unknown tool: ").data ++ name) ∧
    (∀ t errs, assocLookup reg name = some t →
      validate t.schema input = Except.error errs →
      ∃ tail, executeTool reg name input =
        ("Invalid input for ").data ++ name ++ (": ").data ++ tail) ∧
    (∀ t params, assocLookup reg name = some t →
      validate t.schema input = Except.ok params →
      executeTool reg name input = t.run params) := by
  refine ⟨?_, ?_, ?_⟩
  · intro h
    simp [executeTool, h]
  · intro t errs hl hv
    exact ⟨renderVErrs errs, by simp [executeTool, hl, hv]⟩
  · intro t params hl hv
    simp [executeTool, hl, hv]

/-- Witness for `execute_tool_contract` on a registry holding edit_file: an
unknown name, an ill-typed input, and a well-typed input. -/
theorem execute_tool_contract_witness :
    executeTool reg1 ("nope").data [] = ("Unknown tool: ").data ++ ("nope").data ∧
    (∃ tail, executeTool reg1 ("edit_file").data [(("path").data, Value.num 3)] =
      ("Invalid input for ").data ++ ("edit_file").data ++ (": ").data ++ tail) ∧
    executeTool reg1 ("edit_file").data
        [(("path").data, Value.str ("p").data),
         (("old_str").data, Value.str ("a").data),
         (("new_str").data, Value.str ("b").data)] = ("edited").data :=
  ⟨(execute_tool_contract reg1 ("nope").data []).1 rfl,
   (execute_tool_contract reg1 ("edit_file").data [(("path").data, Value.num 3)]).2.1
      entryEdit
      [VErr.typeMismatch ("path").data, VErr.missingRequired ("old_str").data,
       VErr.missingRequired ("new_str").data] rfl rfl,
   Eq.trans
     ((execute_tool_contract reg1 ("edit_file").data
        [(("path").data, Value.str ("p").data),
         (("old_str").data, Value.str ("a").data),
         (("new_str").data, Value.str ("b").data)]).2.2 entryEdit
        [(("path").data, Value.str ("p").data),
         (("old_str").data, Value.str ("a").data),
         (("new_str").data, Value.str ("b").data)] rfl rfl) rfl⟩

/-- C5 counterexample: registering a second descriptor under an
already-present name does not fail — `TOOLS[name] = {...}` silently
replaces the stored descriptor with the new one. -/
theorem register_duplicate_counterexample :
    registerTool (registerTool [] ("t").data entryA) ("t").data entryB =
      [(("t").data, entryB)] ∧
    entryB.schema ≠ entryA.schema :=
  ⟨rfl, by decide⟩

/-- C5 as amended: registration always succeeds; under an existing name it
silently replaces the descriptor in place (the key set is unchanged), and a
subsequent lookup returns the newly registered descriptor. -/
theorem register_replaces (reg : List (List Char × ToolEntry)) (name : List Char)
    (t : ToolEntry) :
    assocLookup (registerTool reg name t) name = some t ∧
    ((assocLookup reg name).isSome →
      (registerTool reg name t).map Prod.fst = reg.map Prod.fst) :=
  ⟨assocLookup_pyDictInsert reg name t,
   fun h => keys_pyDictInsert_of_mem reg name t h⟩

/-- Witness for `register_replaces`: re-registering name "t" over `entryA`
keeps the key set and makes lookup return `entryB`. -/
theorem register_replaces_witness :
    assocLookup (registerTool [(("t").data, entryA)] ("t").data entryB) ("t").data
      = some entryB ∧
    (registerTool [(("t").data, entryA)] ("t").data entryB).map Prod.fst =
      [(("t").data, entryA)].map Prod.fst :=
  ⟨(register_replaces [(("t").data, entryA)] ("t").data entryB).1,
   (register_replaces [(("t").data, entryA)] ("t").data entryB).2 rfl⟩

theorem wfFrom_append_fuel : ∀ (n : Nat) (xs ys : List Turn), xs.length ≤ n →
    wfFrom none xs = true → wfFrom none ys = true → wfFrom none (xs ++ ys) = true := by
  intro n
  induction n with
  | zero =>
    intro xs ys hlen h1 h2
    have hx : xs = [] := List.eq_nil_of_length_eq_zero (Nat.le_zero.mp hlen)
    subst hx
    simpa using h2
  | succ n ih =>
    intro xs ys hlen h1 h2
    cases xs with
    | nil => simpa using h2
    | cons t rest =>
      have hlen' : rest.length ≤ n := by
        simp only [List.length_cons] at hlen
        omega
      cases t with
      | user s =>
        have h1' : wfFrom none rest = true := by simpa [wfFrom] using h1
        simpa [wfFrom] using ih rest ys hlen' h1' h2
      | toolResults rs =>
        have h1' : wfFrom none rest = true := by simpa [wfFrom] using h1
        simpa [wfFrom] using ih rest ys hlen' h1' h2
      | assistant bs =>
        by_cases hid : toolIds bs = []
        · have h1' : wfFrom none rest = true := by simpa [wfFrom, hid] using h1
          simpa [wfFrom, hid] using ih rest ys hlen' h1' h2
        · cases rest with
          | nil => simp [wfFrom, hid] at h1
          | cons t2 rest2 =>
            cases t2 with
            | user s2 => simp [wfFrom, hid] at h1
            | assistant bs2 => simp [wfFrom, hid] at h1
            | toolResults rs2 =>
              have h1' : rs2.map Prod.fst = toolIds bs ∧ wfFrom none rest2 = true := by
                simpa [wfFrom, hid] using h1
              have hlen2 : rest2.length ≤ n := by
                simp only [List.length_cons] at hlen
                omega
              have := ih rest2 ys hlen2 h1'.2 h2
              simpa [wfFrom, hid, h1'.1] using this

theorem wfFrom_append (xs ys : List Turn) (h1 : wfFrom none xs = true)
    (h2 : wfFrom none ys = true) : wfFrom none (xs ++ ys) = true :=
  wfFrom_append_fuel xs.length xs ys le_rfl h1 h2

/-- C2: the loop preserves the pairing invariant — after an assistant turn
with tool calls it appends exactly one tool-results turn holding one result
per call under the matching id in request order, and it takes the adapter's
next response only after that turn is complete; an assistant turn without
tool calls ends the round with nothing appended after it; and the scripted
one-call-then-text adapter produces exactly one tool-results turn, with the
matching id, before the final text turn. -/
theorem conversation_loop_contract :
    (∀ (e : List Char → List (List Char × Value) → List Char)
       (script : List (List ContentBlock)) (conv : List Turn),
      wfConv conv = true → wfConv (runInner e script conv) = true) ∧
    (∀ (e : List Char → List (List Char × Value) → List Char)
       (resp : List ContentBlock) (rest : List (List ContentBlock)) (conv : List Turn),
      toolUses resp ≠ [] →
      runInner e (resp :: rest) conv =
        runInner e rest (conv ++ [Turn.assistant resp,
          Turn.toolResults ((toolUses resp).map (fun u => (u.1, e u.2.1 u.2.2)))])) ∧
    (∀ (e : List Char → List (List Char × Value) → List Char)
       (resp : List ContentBlock) (rest : List (List ContentBlock)) (conv : List Turn),
      toolUses resp = [] →
      runInner e (resp :: rest) conv = conv ++ [Turn.assistant resp]) ∧
    runInner (fun _ _ => ("ok").data) script2 [Turn.user ("hi").data] =
      [Turn.user ("hi").data,
       Turn.assistant [ContentBlock.toolUse ("id1").data ("bash").data
         [(("command").data, Value.str ("echo hi").data)]],
       Turn.toolResults [(("id1").data, ("ok").data)],
       Turn.assistant [ContentBlock.text ("done").data]] := by
  refine ⟨?_, ?_, ?_, by decide⟩
  · intro e script
    induction script with
    | nil => intro conv h; simpa [runInner] using h
    | cons resp rest ih =>
      intro conv h
      by_cases huse : toolUses resp = []
      · have hid : toolIds resp = [] := by simp [toolIds, huse]
        have h2 : wfFrom none [Turn.assistant resp] = true := by simp [wfFrom, hid]
        simpa [runInner, huse, wfConv] using
          wfFrom_append conv [Turn.assistant resp] h h2
      · have hid : toolIds resp ≠ [] := by
          simp only [toolIds]
          intro hm
          exact huse (List.map_eq_nil_iff.mp hm)
        have hmap : (((toolUses resp).map (fun u => (u.1, e u.2.1 u.2.2))).map Prod.fst)
            = toolIds resp := by
          simp [toolIds, List.map_map]
        have h2 : wfFrom none [Turn.assistant resp,
            Turn.toolResults ((toolUses resp).map (fun u => (u.1, e u.2.1 u.2.2)))]
            = true := by
          simp [wfFrom, hid, hmap]
        have happ := wfFrom_append conv _ h h2
        have hstep : runInner e (resp :: rest) conv =
            runInner e rest (conv ++ [Turn.assistant resp,
              Turn.toolResults ((toolUses resp).map (fun u => (u.1, e u.2.1 u.2.2)))]) := by
          simp [runInner, huse]
        rw [wfConv, hstep]
        exact ih _ happ
  · intro e resp rest conv huse
    simp [runInner, huse]
  · intro e resp rest conv huse
    simp [runInner, huse]

/-- Witness for `conversation_loop_contract`: the scripted run preserves the
invariant from a single user turn, and the step equations at script2. -/
theorem conversation_loop_contract_witness :
    wfConv (runInner (fun _ _ => ("ok").data) script2 [Turn.user ("hi").data]) = true ∧
    runInner (fun _ _ => ("ok").data) [[ContentBlock.text ("done").data]]
        [Turn.user ("hi").data] =
      [Turn.user ("hi").data, Turn.assistant [ContentBlock.text ("done").data]] :=
  ⟨conversation_loop_contract.1 (fun _ _ => ("ok").data) script2
      [Turn.user ("hi").data] (by decide),
   conversation_loop_contract.2.2.1 (fun _ _ => ("ok").data)
      [ContentBlock.text ("done").data] [] [Turn.user ("hi").data] (by decide)⟩

end Agent6
